import Mathlib

/-!
Verification development for the domain-auction analyzer
(`src/domain_filter.py`).  Domain names are embedded as `List Char`,
monetary/score values as `ℚ`, integer metrics as `ℤ`.  Each Python
function of the scoring-and-selection pipeline is translated to a Lean
definition of the same name, and the testable properties of the design
document are settled as theorems about those definitions.
-/

set_option maxRecDepth 10000

namespace DomainFilter

/-- Python `str.strip`: drop leading and trailing whitespace. -/
def pyStrip (l : List Char) : List Char :=
  ((l.dropWhile Char.isWhitespace).reverse.dropWhile Char.isWhitespace).reverse

/-- Python `str.lower`, characterwise. -/
def pyLower (l : List Char) : List Char :=
  l.map Char.toLower

/-- `CURRENT_YEAR` constant from the configuration section. -/
def CURRENT_YEAR : ℤ := 2025

/-- The TLD suffixes stripped by `clean_domain`'s regular expression
`\.(com|net|org|info|biz|co|io|ai|tech|cc|tv|us|ws)$`, in alternation order,
each including the leading dot. -/
def TLD_SUFFIXES : List (List Char) :=
  [".com".data, ".net".data, ".org".data, ".info".data, ".biz".data,
   ".co".data, ".io".data, ".ai".data, ".tech".data, ".cc".data,
   ".tv".data, ".us".data, ".ws".data]

/-- `clean_domain`: lowercase, strip whitespace, and remove one trailing
known TLD suffix (the regex is anchored at the end of the string, so at most
one suffix is removed; if none matches the name is kept whole). -/
def clean_domain (domain : List Char) : List Char :=
  let d := pyStrip (pyLower domain)
  match TLD_SUFFIXES.find? (fun t => decide (t <:+ d)) with
  | some t => d.take (d.length - t.length)
  | none => d

/-- `get_tld`: the trailing `.<alpha-suffix>` of the lowercased domain
(regex `\.([a-z]+)$`), or `".com"` when there is no such suffix. -/
def get_tld (domain : List Char) : List Char :=
  let d := pyLower domain
  let r := d.reverse
  let letters := r.takeWhile fun c => decide ('a' ≤ c) && decide (c ≤ 'z')
  if 0 < letters.length ∧ (r.drop letters.length).head? = some '.' then
    '.' :: letters.reverse
  else ".com".data

/-- `INDUSTRY_KEYWORDS` table, in source (insertion) order. -/
def INDUSTRY_KEYWORDS : List (String × List (List Char)) :=
  [("IT / Software",
    ["tech".data, "software".data, "digital".data, "cloud".data, "web".data,
     "system".data, "dev".data, "app".data, "platform".data, "code".data,
     "api".data, "saas".data, "solution".data, "cyber".data, "data".data,
     "net".data, "host".data, "server".data, "online".data, "site".data,
     "media".data]),
   ("Manufacturing",
    ["manufacture".data, "factory".data, "production".data, "industrial".data,
     "machinery".data, "assembly".data, "plant".data, "fabrication".data,
     "automation".data]),
   ("Healthcare",
    ["health".data, "care".data, "medical".data, "clinic".data, "pharma".data,
     "bio".data, "med".data, "hospital".data, "therapy".data, "wellness".data,
     "diagnostic".data, "patient".data, "doctor".data]),
   ("Engineering",
    ["engineer".data, "mechanical".data, "civil".data, "design".data,
     "rd".data, "cad".data, "construction".data, "structural".data,
     "technical".data, "consult".data, "architect".data]),
   ("HR / Recruitment",
    ["hr".data, "job".data, "recruit".data, "talent".data, "staff".data,
     "career".data, "hire".data, "employment".data, "workforce".data,
     "personnel".data, "resume".data]),
   ("Analytics",
    ["analytics".data, "insight".data, "metrics".data, "intelligence".data,
     "dashboard".data, "report".data, "visualization".data, "ml".data,
     "algorithm".data]),
   ("Cybersecurity",
    ["secure".data, "shield".data, "protect".data, "defense".data,
     "security".data, "firewall".data, "encryption".data, "audit".data,
     "compliance".data, "risk".data]),
   ("Wellness / Education Tech",
    ["wellness".data, "edu".data, "learn".data, "school".data, "fitness".data,
     "training".data, "course".data, "academy".data, "teaching".data,
     "student".data, "nutrition".data, "yoga".data])]

/-- The flattened (industry, keyword) pairs in the iteration order of the
nested loops of `match_industry`. -/
def industryPairs : List (String × List Char) :=
  INDUSTRY_KEYWORDS.flatMap fun ik => ik.2.map fun k => (ik.1, k)

/-- One iteration of the inner loop of `match_industry`: if the keyword is a
substring, compute its quality (1.0 for an exact/leading/trailing match,
0.7 mid-string) and keep it when it strictly beats the best seen so far. -/
def matchStep (domain_name : List Char) (acc : Option String × ℚ)
    (p : String × List Char) : Option String × ℚ :=
  if p.2 <:+: domain_name then
    let score : ℚ :=
      if domain_name = p.2 ∨ p.2 <+: domain_name ∨ p.2 <:+ domain_name then 1.0
      else 0.7
    if acc.2 < score then (some p.1, score) else acc
  else acc

/-- `match_industry`: fold the keyword table, tracking the best-scoring
(industry, quality) pair; `(none, 0)` when no keyword matches. -/
def match_industry (domain_name : List Char) : Option String × ℚ :=
  industryPairs.foldl (matchStep domain_name) (none, 0)

/-- A raw loaded record: the fields parsed from one CSV row. -/
structure DomainData where
  domain : List Char
  price : ℚ
  age : ℤ
  tf : ℤ
  cf : ℤ
  traffic : ℤ
  backlinks : ℤ
  referring_domains : ℤ
  deriving DecidableEq, Repr

/-- A record enriched by the classification step of
`filter_and_score_domains` (the keys added to the dict before the
deny-list checks). -/
structure Classified where
  base : DomainData
  domain_name_clean : List Char
  tld : List Char
  industry : String
  industry_match_quality : ℚ
  register_date : ℤ
  deriving DecidableEq, Repr

/-- Python `round` ties-to-even on an exact rational. -/
def pyRoundHalfEven (q : ℚ) : ℤ :=
  if Int.fract q < 0.5 then ⌊q⌋
  else if 0.5 < Int.fract q then ⌊q⌋ + 1
  else if 2 ∣ ⌊q⌋ then ⌊q⌋ else ⌊q⌋ + 1

/-- Python `round(q, 2)`. -/
def round2 (q : ℚ) : ℚ :=
  (pyRoundHalfEven (q * 100) : ℚ) / 100

/-- `calculate_combined_score`: the weighted 0-100 score of a classified
record, normalized against the three batch maxima. -/
def calculate_combined_score (d : Classified)
    (max_age max_backlinks max_traffic : ℤ) : ℚ :=
  let age_score : ℚ :=
    if 0 < max_age then min ((d.base.age : ℚ) / (max_age : ℚ)) 1.0 else 0
  let tf_cf_score : ℚ := ((d.base.tf : ℚ) + (d.base.cf : ℚ)) / 100
  let backlink_total : ℚ := (d.base.backlinks : ℚ) + (d.base.referring_domains : ℚ)
  let backlink_score : ℚ :=
    if 0 < max_backlinks then
      min (backlink_total / ((max max_backlinks 1 : ℤ) : ℚ)) 1.0
    else 0
  let traffic_score : ℚ :=
    if 0 < max_traffic then
      min ((d.base.traffic : ℚ) / ((max max_traffic 1 : ℤ) : ℚ)) 1.0
    else 0
  let industry_weight := d.industry_match_quality
  let combined_score :=
    (0.25 * industry_weight + 0.20 * age_score + 0.20 * tf_cf_score +
      0.20 * backlink_score + 0.15 * traffic_score) * 100
  let tld_bonus : ℚ := if d.tld = ".com".data then 1.0 else 0.85
  let health_ratio : ℚ :=
    if 0 < d.base.cf then (d.base.tf : ℚ) / ((max d.base.cf 1 : ℤ) : ℚ) else 1.0
  let health_bonus : ℚ := if 0.7 ≤ health_ratio then 1.0 else 0.9
  round2 (min (combined_score * (tld_bonus * health_bonus)) 100)

/-- A record carrying the `combined_score` key added by the scoring pass. -/
structure Scored where
  record : Classified
  combined_score : ℚ
  deriving DecidableEq, Repr

/-- Comparator of the descending stable sorts (`reverse=True` on the
`combined_score` key): `a` may precede `b` when its score is at least
`b`'s. -/
def scoreDescLe (a b : Scored) : Bool :=
  decide (b.combined_score ≤ a.combined_score)

/-- Python's stable `list.sort(key=combined_score, reverse=True)`. -/
def sortByScoreDesc (l : List Scored) : List Scored :=
  l.mergeSort scoreDescLe

/-- Python `max(generator, default)`: the maximum of the list when
non-empty, the default otherwise. -/
def maxOf (l : List ℤ) (dflt : ℤ) : ℤ :=
  (l.foldl (fun (a : WithBot ℤ) (x : ℤ) => max a (x : WithBot ℤ)) ⊥).unbot' dflt

/-- The classification step applied to one record inside the loop of
`filter_and_score_domains`: clean the name, match an industry, and enrich
the record when an industry was found. -/
def classifyRecord (d : DomainData) : Option Classified :=
  let domain_name := clean_domain d.domain
  let m := match_industry domain_name
  match m.1 with
  | none => none
  | some industry =>
      some { base := d
             domain_name_clean := domain_name
             tld := get_tld d.domain
             industry := industry
             industry_match_quality := m.2
             register_date := CURRENT_YEAR - d.age }

/-- The loop of `filter_and_score_domains` before scoring: classify each
record, drop `.org` TLDs and names containing `"horizon"`, and partition
the survivors into the `it_domains` and `other_domains` buckets, in input
order. -/
def bucketize : List DomainData → List Classified × List Classified
  | [] => ([], [])
  | d :: rest =>
      let p := bucketize rest
      match classifyRecord d with
      | none => p
      | some c =>
          if c.tld = ".org".data then p
          else if "horizon".data <:+: c.domain_name_clean then p
          else if c.industry = "IT / Software" then (c :: p.1, p.2)
          else (p.1, c :: p.2)

/-- Attach a score to a classified record. -/
def scoreWith (max_age max_backlinks max_traffic : ℤ) (d : Classified) : Scored :=
  { record := d
    combined_score := calculate_combined_score d max_age max_backlinks max_traffic }

/-- `filter_and_score_domains`: classify, deny-list, compute the three
batch maxima over all matched records, score every record, and return the
two buckets sorted descending by score. -/
def filter_and_score_domains (domains : List DomainData) :
    List Scored × List Scored :=
  let buckets := bucketize domains
  let all_matched := buckets.1 ++ buckets.2
  if all_matched.isEmpty then ([], [])
  else
    let max_age := maxOf (all_matched.map fun d => d.base.age) 26
    let max_backlinks :=
      maxOf (all_matched.map fun d => d.base.backlinks + d.base.referring_domains) 500
    let max_traffic := maxOf (all_matched.map fun d => d.base.traffic) 100
    (sortByScoreDesc (buckets.1.map (scoreWith max_age max_backlinks max_traffic)),
     sortByScoreDesc (buckets.2.map (scoreWith max_age max_backlinks max_traffic)))

/-- Python `int()` on an exact rational: truncation toward zero. -/
def pyInt (q : ℚ) : ℤ :=
  if q < 0 then -⌊-q⌋ else ⌊q⌋

/-- Clamp a (possibly negative) Python slice index to a list length. -/
def pySliceIdx (len : ℕ) (k : ℤ) : ℕ :=
  (if k < 0 then max ((len : ℤ) + k) 0 else min k len).toNat

/-- Python `l[a:b]` on exact integer indices. -/
def pySlice {α : Type} (l : List α) (a b : ℤ) : List α :=
  (l.take (pySliceIdx l.length b)).drop (pySliceIdx l.length a)

/-- The IT-bucket quota `it_count = int(total_count * it_percentage)`. -/
def itQuota (total_count : ℤ) (it_percentage : ℚ) : ℤ :=
  pyInt ((total_count : ℚ) * it_percentage)

/-- `select_top_domains`: take each bucket's quota slice, fill a gap in
one bucket from the unused tail of the other, and return the union sorted
descending by score. -/
def select_top_domains (it_domains other_domains : List Scored)
    (total_count : ℤ) (it_percentage : ℚ) : List Scored :=
  let it_count : ℤ := itQuota total_count it_percentage
  let other_count : ℤ := total_count - it_count
  let selected_it := pySlice it_domains 0 it_count
  let selected_other := pySlice other_domains 0 other_count
  let it_gap : ℤ := it_count - selected_it.length
  let other_gap : ℤ := other_count - selected_other.length
  let selected_other2 :=
    if 0 < it_gap ∧ other_count < (other_domains.length : ℤ) then
      selected_other ++ pySlice other_domains other_count (other_count + it_gap)
    else selected_other
  let selected_it2 :=
    if 0 < other_gap ∧ it_count < (it_domains.length : ℤ) then
      selected_it ++ pySlice it_domains it_count (it_count + other_gap)
    else selected_it
  sortByScoreDesc (selected_it2 ++ selected_other2)

/-- Python `" | ".join`. -/
def joinBar : List (List Char) → List Char
  | [] => []
  | [x] => x
  | x :: y :: rest => x ++ " | ".data ++ joinBar (y :: rest)

/-- `base_menu` of `generate_menu_navigation`. -/
def base_menu : List (List Char) :=
  ["Home".data, "About".data, "Contact".data]

/-- The `industry_specific` middle-item table of
`generate_menu_navigation`, in source order. -/
def industry_specific : List (String × List (List Char)) :=
  [("Manufacturing",
    ["Products".data, "Solutions".data, "Industries".data, "Resources".data]),
   ("IT / Software",
    ["Solutions".data, "Products".data, "Pricing".data, "Resources".data,
     "Developers".data]),
   ("Healthcare",
    ["Services".data, "Solutions".data, "Resources".data, "Patients".data]),
   ("Engineering",
    ["Services".data, "Projects".data, "Solutions".data, "Resources".data]),
   ("HR / Recruitment",
    ["Jobs".data, "Employers".data, "Candidates".data, "Resources".data]),
   ("Analytics",
    ["Platform".data, "Solutions".data, "Insights".data, "Resources".data]),
   ("Cybersecurity",
    ["Solutions".data, "Services".data, "Resources".data, "Partners".data]),
   ("Wellness / Education Tech",
    ["Courses".data, "Programs".data, "Resources".data, "Community".data])]

/-- `industry_specific.get(industry, ["Products", "Services", "Resources"])`. -/
def menuMiddleItems (industry : String) : List (List Char) :=
  match industry_specific.find? (fun p => p.1 == industry) with
  | some p => p.2
  | none => ["Products".data, "Services".data, "Resources".data]

/-- The menu entry list `[base_menu[0]] + middle_items + base_menu[1:]`
truncated to 7 entries. -/
def menuItems (industry : String) : List (List Char) :=
  (base_menu.take 1 ++ menuMiddleItems industry ++ base_menu.drop 1).take 7

/-- `generate_menu_navigation`: the menu entries joined with `" | "`. -/
def generate_menu_navigation (industry : String) : List Char :=
  joinBar (menuItems industry)

/-- Numeric fields of one successfully parsed CSV row. -/
structure RowFields where
  price : ℚ
  age : ℤ
  tf : ℤ
  cf : ℤ
  traffic : ℤ
  backlinks : ℤ
  referring_domains : ℤ
  deriving DecidableEq, Repr

/-- One CSV row as seen by the loop of `load_csv_files`.
`domainName = none` models a row without a readable `Domain Name` column
(the `KeyError` path, skipped before any bookkeeping); `fields = none`
models a row whose numeric fields fail to parse (the `ValueError` path,
raised only after the domain was added to `seen_domains`). -/
structure RawRow where
  domainName : Option (List Char)
  fields : Option RowFields
  deriving DecidableEq, Repr

/-- Build the loaded record of a row from its parsed pieces. -/
def mkDomainData (dn : List Char) (f : RowFields) : DomainData :=
  { domain := dn, price := f.price, age := f.age, tf := f.tf, cf := f.cf,
    traffic := f.traffic, backlinks := f.backlinks,
    referring_domains := f.referring_domains }

/-- The row loop of `load_csv_files`, threading the `seen_domains` set
(modelled as the list of lowercase domains seen so far).  The domain is
stripped, lowercased, checked against `seen_domains` and the exclusion
set, and added to `seen_domains` before the numeric fields are parsed, so
a row whose fields fail to parse still claims its domain. -/
def loadRows (excluded : List (List Char)) :
    List RawRow → List (List Char) → List DomainData
  | [], _ => []
  | row :: rest, seen =>
      match row.domainName with
      | none => loadRows excluded rest seen
      | some dn0 =>
          let dn := pyStrip dn0
          let dl := pyLower dn
          if dl ∈ seen then loadRows excluded rest seen
          else if dl ∈ excluded then loadRows excluded rest seen
          else
            match row.fields with
            | none => loadRows excluded rest (dl :: seen)
            | some f => mkDomainData dn f :: loadRows excluded rest (dl :: seen)

/-- `load_csv_files` over the concatenated rows of all CSV files, with an
initially empty `seen_domains` set. -/
def load_csv_files (rows : List RawRow) (excluded : List (List Char)) :
    List DomainData :=
  loadRows excluded rows []

/-- The classified example record of the spec: `mytechsolutions.com`,
age 10, TF 15, CF 10, traffic 25, backlinks 50, referring domains 10,
price 500, classified IT / Software with quality 0.7. -/
def mytechRecord : Classified :=
  { base := { domain := "mytechsolutions.com".data, price := 500, age := 10,
              tf := 15, cf := 10, traffic := 25, backlinks := 50,
              referring_domains := 10 }
    domain_name_clean := "mytechsolutions".data
    tld := ".com".data
    industry := "IT / Software"
    industry_match_quality := 0.7
    register_date := 2015 }

/-- The quality contributed by a single keyword: 1.0 for an exact, leading
or trailing substring match, 0.7 for a mid-string match, 0 when the keyword
is not a substring at all. -/
def kwScore (name kw : List Char) : ℚ :=
  if kw <:+: name then
    (if name = kw ∨ kw <+: name ∨ kw <:+ name then 1.0 else 0.7)
  else 0

/-- The best quality over a list of (industry, keyword) pairs
(0 when no keyword matches). -/
def bestScore (name : List Char) (ps : List (String × List Char)) : ℚ :=
  (ps.map fun p => kwScore name p.2).foldr max 0

/-- The number of leading `it_domains` records selected by
`select_top_domains` (quota slice plus any gap fill), as an index
formula. -/
def selA (it other : List Scored) (N : ℤ) (r : ℚ) : ℕ :=
  let ic := itQuota N r
  let oc := N - ic
  let A0 := pySliceIdx it.length ic
  let B0 := pySliceIdx other.length oc
  if 0 < oc - (B0 : ℤ) ∧ ic < (it.length : ℤ) then
    max A0 (pySliceIdx it.length (ic + (oc - (B0 : ℤ))))
  else A0

/-- The number of leading `other_domains` records selected by
`select_top_domains` (quota slice plus any gap fill), as an index
formula. -/
def selB (it other : List Scored) (N : ℤ) (r : ℚ) : ℕ :=
  let ic := itQuota N r
  let oc := N - ic
  let A0 := pySliceIdx it.length ic
  let B0 := pySliceIdx other.length oc
  if 0 < ic - (A0 : ℤ) ∧ oc < (other.length : ℤ) then
    max B0 (pySliceIdx other.length (oc + (ic - (A0 : ℤ))))
  else B0

/-- The raw `horizonhealthcare.com` record of the spec's example. -/
def horizonData : DomainData :=
  { domain := "horizonhealthcare.com".data, price := 100, age := 5, tf := 5,
    cf := 5, traffic := 5, backlinks := 5, referring_domains := 5 }

/-- Keep the first occurrence of each element, given an initial set of
already-seen elements. -/
def firstDedup : List (List Char) → List (List Char) → List (List Char)
  | [], _ => []
  | x :: xs, seen =>
      if x ∈ seen then firstDedup xs seen
      else x :: firstDedup xs (x :: seen)

/-- A row whose `Domain Name` parses but whose numeric fields raise
`ValueError`: it is skipped, but only after its lowercase domain was
added to `seen_domains`. -/
def row1bad : RawRow :=
  { domainName := some "Tech.com".data, fields := none }

/-- A later well-formed row for the same domain in different case. -/
def row2good : RawRow :=
  { domainName := some "tech.com".data
    fields := some { price := 500, age := 10, tf := 15, cf := 10,
                     traffic := 25, backlinks := 50, referring_domains := 10 } }


/-! ### General helper lemmas -/

theorem sortByScoreDesc_perm (l : List Scored) : (sortByScoreDesc l).Perm l :=
  List.mergeSort_perm l scoreDescLe

theorem sortByScoreDesc_length (l : List Scored) :
    (sortByScoreDesc l).length = l.length :=
  (sortByScoreDesc_perm l).length_eq

theorem take_append_drop_take {α : Type} (l : List α) (a b : ℕ) :
    l.take a ++ (l.take b).drop a = l.take (max a b) := by
  rcases le_total a b with h | h
  · rw [max_eq_right h]
    conv_rhs => rw [← List.take_append_drop a (l.take b)]
    rw [List.take_take, min_eq_left h]
  · rw [max_eq_left h, List.drop_eq_nil_of_le, List.append_nil]
    calc (l.take b).length = min b l.length := l.length_take b
    _ ≤ b := min_le_left _ _
    _ ≤ a := h

theorem pySlice_zero_left {α : Type} (l : List α) (b : ℤ) :
    pySlice l 0 b = l.take (pySliceIdx l.length b) := by
  simp [pySlice, pySliceIdx]

theorem pySliceIdx_nonneg (len : ℕ) {k : ℤ} (hk : 0 ≤ k) :
    pySliceIdx len k = min k.toNat len := by
  simp only [pySliceIdx, if_neg (not_lt.2 hk)]
  omega

theorem pySlice_take {α : Type} (l : List α) {b : ℤ} (hb : 0 ≤ b) :
    pySlice l 0 b = l.take b.toNat := by
  rw [pySlice_zero_left, pySliceIdx_nonneg _ hb]
  rcases le_total b.toNat l.length with h | h
  · rw [min_eq_left h]
  · rw [min_eq_right h, List.take_length, List.take_of_length_le h]

/-- The list built by `select_top_domains` before the final sort is a pair
of initial segments of the two buckets. -/
theorem select_top_shape (it_domains other_domains : List Scored)
    (total_count : ℤ) (it_percentage : ℚ) :
    ∃ A B, select_top_domains it_domains other_domains total_count it_percentage
      = sortByScoreDesc (it_domains.take A ++ other_domains.take B) := by
  unfold select_top_domains
  set ic := itQuota total_count it_percentage with hic
  set oc := total_count - ic with hoc
  simp only [pySlice_zero_left]
  set A0 := pySliceIdx it_domains.length ic with hA0
  set B0 := pySliceIdx other_domains.length oc with hB0
  set itg : ℤ := ic - (it_domains.take A0).length with hitg
  set otg : ℤ := oc - (other_domains.take B0).length with hotg
  refine ⟨if 0 < otg ∧ ic < (it_domains.length : ℤ) then
            max A0 (pySliceIdx it_domains.length (ic + otg)) else A0,
          if 0 < itg ∧ oc < (other_domains.length : ℤ) then
            max B0 (pySliceIdx other_domains.length (oc + itg)) else B0, ?_⟩
  congr 1
  split
  · split
    · simp only [pySlice, take_append_drop_take]
    · simp only [pySlice, take_append_drop_take]
  · split
    · simp only [pySlice, take_append_drop_take]
    · rfl

/-! ### C1: the worked example record -/

/-- C1: for the normalized name `mytechsolutions` (with age 10, TF 15,
CF 10, traffic 25, backlinks 50, referring domains 10, TLD `.com`) under
batch maxima 20/200/100, `match_industry` returns IT / Software with
quality 0.7, and `calculate_combined_score` returns the value of the
formula of design section 4.3, namely 42.25. -/
theorem C1_mytechsolutions_example :
    match_industry (clean_domain "mytechsolutions.com".data)
        = (some "IT / Software", 0.7)
    ∧ calculate_combined_score mytechRecord 20 200 100
        = round2 (min (100 * (0.25 * 0.7 + 0.20 * ((10 : ℚ) / 20)
            + 0.20 * ((15 + 10) / 100) + 0.20 * ((50 + 10) / 200)
            + 0.15 * (25 / 100)) * 1.0 * 1.0) 100)
    ∧ calculate_combined_score mytechRecord 20 200 100 = 42.25 := by
  refine ⟨?_, ?_, ?_⟩
  · have h : clean_domain "mytechsolutions.com".data = "mytechsolutions".data := by
      simp +decide [clean_domain, pyStrip, pyLower, TLD_SUFFIXES]
    rw [h]
    simp +decide [match_industry, industryPairs, INDUSTRY_KEYWORDS, matchStep]
    norm_num
  · simp only [calculate_combined_score, mytechRecord]
    norm_num
  · simp only [calculate_combined_score, mytechRecord]
    norm_num [round2, pyRoundHalfEven, Int.fract]

/-! ### C6: score bounds -/

theorem pyRoundHalfEven_mem (q : ℚ) :
    pyRoundHalfEven q = ⌊q⌋ ∨ pyRoundHalfEven q = ⌊q⌋ + 1 := by
  unfold pyRoundHalfEven
  split_ifs <;> simp

theorem round2_nonneg {q : ℚ} (hq : 0 ≤ q) : 0 ≤ round2 q := by
  unfold round2
  have h0 : (0 : ℤ) ≤ ⌊q * 100⌋ := Int.floor_nonneg.2 (by positivity)
  have h1 : (0 : ℤ) ≤ pyRoundHalfEven (q * 100) := by
    rcases pyRoundHalfEven_mem (q * 100) with h | h <;> omega
  exact div_nonneg (by exact_mod_cast h1) (by norm_num)

theorem round2_le_100 {q : ℚ} (hq : q ≤ 100) : round2 q ≤ 100 := by
  unfold round2
  rw [div_le_iff₀ (by norm_num : (0 : ℚ) < 100)]
  have hfl : ⌊q * 100⌋ ≤ 10000 := by
    have h : q * 100 ≤ ((10000 : ℤ) : ℚ) := by push_cast; linarith
    calc ⌊q * 100⌋ ≤ ⌊((10000 : ℤ) : ℚ)⌋ := Int.floor_le_floor h
    _ = 10000 := Int.floor_intCast _
  have key : pyRoundHalfEven (q * 100) ≤ 10000 := by
    unfold pyRoundHalfEven
    split_ifs with h1 h2 h3
    · exact hfl
    all_goals
      first
      | exact hfl
      | · have hne : ⌊q * 100⌋ < 10000 := by
            rcases lt_or_eq_of_le hfl with h | h
            · exact h
            · exfalso
              have hfr : Int.fract (q * 100) = q * 100 - 10000 := by
                rw [Int.fract, h]
                push_cast
                ring
              rw [hfr] at h1
              have : (0.5 : ℚ) ≤ q * 100 - 10000 := not_lt.1 h1
              linarith
          omega
  calc ((pyRoundHalfEven (q * 100) : ℚ)) ≤ ((10000 : ℤ) : ℚ) := by exact_mod_cast key
  _ = 100 * 100 := by norm_num

theorem round2_min_bounds (q : ℚ) (hq : 0 ≤ q) :
    0 ≤ round2 (min q 100) ∧ round2 (min q 100) ≤ 100 :=
  ⟨round2_nonneg (le_min hq (by norm_num)), round2_le_100 (min_le_right _ _)⟩

/-- C6: for every record with non-negative numeric fields and a match
quality in [0, 1], under arbitrary batch maxima, the combined score lies
between 0 and 100. -/
theorem C6_score_bounds (d : Classified) (max_age max_backlinks max_traffic : ℤ)
    (hage : 0 ≤ d.base.age) (htf : 0 ≤ d.base.tf) (hcf : 0 ≤ d.base.cf)
    (htr : 0 ≤ d.base.traffic) (hbl : 0 ≤ d.base.backlinks)
    (hrd : 0 ≤ d.base.referring_domains)
    (hq0 : 0 ≤ d.industry_match_quality) (hq1 : d.industry_match_quality ≤ 1) :
    0 ≤ calculate_combined_score d max_age max_backlinks max_traffic
    ∧ calculate_combined_score d max_age max_backlinks max_traffic ≤ 100 := by
  simp only [calculate_combined_score]
  apply round2_min_bounds
  refine mul_nonneg (mul_nonneg ?_ (by norm_num)) (mul_nonneg ?_ ?_)
  · refine add_nonneg (add_nonneg (add_nonneg (add_nonneg ?_ ?_) ?_) ?_) ?_
    · exact mul_nonneg (by norm_num) hq0
    · refine mul_nonneg (by norm_num) ?_
      split_ifs with h
      · refine le_min (div_nonneg ?_ ?_) (by norm_num)
        · exact_mod_cast hage
        · exact_mod_cast h.le
      · exact le_refl 0
    · refine mul_nonneg (by norm_num) (div_nonneg ?_ (by norm_num))
      have := add_nonneg htf hcf
      exact_mod_cast this
    · refine mul_nonneg (by norm_num) ?_
      split_ifs with h
      · refine le_min (div_nonneg ?_ ?_) (by norm_num)
        · have := add_nonneg hbl hrd
          exact_mod_cast this
        · have : (0 : ℤ) ≤ max max_backlinks 1 := le_trans zero_le_one (le_max_right _ _)
          exact_mod_cast this
      · exact le_refl 0
    · refine mul_nonneg (by norm_num) ?_
      split_ifs with h
      · refine le_min (div_nonneg ?_ ?_) (by norm_num)
        · exact_mod_cast htr
        · have : (0 : ℤ) ≤ max max_traffic 1 := le_trans zero_le_one (le_max_right _ _)
          exact_mod_cast this
      · exact le_refl 0
  · split_ifs <;> norm_num
  · split_ifs <;> norm_num

/-- Witness for C6 at the concrete example record and maxima. -/
theorem C6_score_bounds_witness :
    0 ≤ calculate_combined_score mytechRecord 20 200 100
    ∧ calculate_combined_score mytechRecord 20 200 100 ≤ 100 :=
  C6_score_bounds mytechRecord 20 200 100 (by norm_num [mytechRecord])
    (by norm_num [mytechRecord]) (by norm_num [mytechRecord])
    (by norm_num [mytechRecord]) (by norm_num [mytechRecord])
    (by norm_num [mytechRecord]) (by norm_num [mytechRecord])
    (by norm_num [mytechRecord])

/-! ### C4: characterization of `match_industry` -/

theorem kwScore_nonneg (name kw : List Char) : 0 ≤ kwScore name kw := by
  unfold kwScore
  split_ifs <;> norm_num

theorem bestScore_nil (name : List Char) : bestScore name [] = 0 := rfl

theorem bestScore_cons (name : List Char) (p : String × List Char)
    (ps : List (String × List Char)) :
    bestScore name (p :: ps) = max (kwScore name p.2) (bestScore name ps) := rfl

theorem bestScore_nonneg (name : List Char) (ps : List (String × List Char)) :
    0 ≤ bestScore name ps := by
  induction ps with
  | nil => exact le_refl 0
  | cons p ps ih =>
      rw [bestScore_cons]
      exact le_trans ih (le_max_right _ _)

theorem le_bestScore_of_mem {name : List Char} {p : String × List Char}
    {ps : List (String × List Char)} (hp : p ∈ ps) :
    kwScore name p.2 ≤ bestScore name ps := by
  induction ps with
  | nil => cases hp
  | cons q ps ih =>
      rw [bestScore_cons]
      rcases List.mem_cons.1 hp with h | h
      · rw [h]
        exact le_max_left _ _
      · exact le_trans (ih h) (le_max_right _ _)

theorem bestScore_le {name : List Char} {ps : List (String × List Char)} {c : ℚ}
    (hc : 0 ≤ c) (h : ∀ p ∈ ps, kwScore name p.2 ≤ c) :
    bestScore name ps ≤ c := by
  induction ps with
  | nil => exact hc
  | cons q ps ih =>
      rw [bestScore_cons]
      exact max_le (h q (List.mem_cons_self q ps))
        (ih fun p hp => h p (List.mem_cons_of_mem q hp))

theorem matchStep_snd (name : List Char) (acc : Option String × ℚ)
    (p : String × List Char) (hacc : 0 ≤ acc.2) :
    (matchStep name acc p).2 = max acc.2 (kwScore name p.2) := by
  unfold matchStep kwScore
  by_cases h1 : p.2 <:+: name
  · simp only [if_pos h1]
    by_cases h2 : name = p.2 ∨ p.2 <+: name ∨ p.2 <:+ name
    · simp only [if_pos h2]
      by_cases h3 : acc.2 < 1.0
      · simp [if_pos h3, max_eq_right h3.le]
      · simp [if_neg h3, max_eq_left (not_lt.1 h3)]
    · simp only [if_neg h2]
      by_cases h3 : acc.2 < 0.7
      · simp [if_pos h3, max_eq_right h3.le]
      · simp [if_neg h3, max_eq_left (not_lt.1 h3)]
  · simp [if_neg h1, max_eq_left hacc]

theorem matchStep_of_le (name : List Char) (acc : Option String × ℚ)
    (p : String × List Char) (h : kwScore name p.2 ≤ acc.2) :
    matchStep name acc p = acc := by
  unfold matchStep
  by_cases h1 : p.2 <:+: name
  · simp only [if_pos h1]
    by_cases h2 : name = p.2 ∨ p.2 <+: name ∨ p.2 <:+ name
    · have hs : kwScore name p.2 = 1.0 := by simp [kwScore, if_pos h1, if_pos h2]
      simp [if_pos h2, if_neg (not_lt.2 (hs ▸ h))]
    · have hs : kwScore name p.2 = 0.7 := by simp [kwScore, if_pos h1, if_neg h2]
      simp [if_neg h2, if_neg (not_lt.2 (hs ▸ h))]
  · simp [if_neg h1]

theorem matchStep_update (name : List Char) (acc : Option String × ℚ)
    (p : String × List Char) (hacc : 0 ≤ acc.2)
    (h : acc.2 < kwScore name p.2) :
    matchStep name acc p = (some p.1, kwScore name p.2) := by
  have h1 : p.2 <:+: name := by
    by_contra hc
    rw [show kwScore name p.2 = 0 from by simp [kwScore, if_neg hc]] at h
    exact absurd (lt_of_le_of_lt hacc h) (lt_irrefl 0)
  unfold matchStep kwScore
  by_cases h2 : name = p.2 ∨ p.2 <+: name ∨ p.2 <:+ name
  · have hs : kwScore name p.2 = 1.0 := by simp [kwScore, if_pos h1, if_pos h2]
    rw [hs] at h
    simp [if_pos h1, if_pos h2, if_pos h]
  · have hs : kwScore name p.2 = 0.7 := by simp [kwScore, if_pos h1, if_neg h2]
    rw [hs] at h
    simp [if_pos h1, if_neg h2, if_pos h]

theorem foldl_matchStep_snd (name : List Char) (ps : List (String × List Char)) :
    ∀ acc : Option String × ℚ, 0 ≤ acc.2 →
      (ps.foldl (matchStep name) acc).2 = max acc.2 (bestScore name ps) := by
  induction ps with
  | nil =>
      intro acc hacc
      simp [bestScore_nil, max_eq_left hacc]
  | cons p ps ih =>
      intro acc hacc
      rw [List.foldl_cons,
        ih _ (by rw [matchStep_snd name acc p hacc]; exact le_trans hacc (le_max_left _ _)),
        matchStep_snd name acc p hacc, bestScore_cons, max_assoc]

theorem foldl_matchStep_of_le (name : List Char) (ps : List (String × List Char)) :
    ∀ acc : Option String × ℚ, bestScore name ps ≤ acc.2 →
      ps.foldl (matchStep name) acc = acc := by
  induction ps with
  | nil => intro acc _; rfl
  | cons p ps ih =>
      intro acc hle
      rw [bestScore_cons, max_le_iff] at hle
      rw [List.foldl_cons, matchStep_of_le name acc p hle.1]
      exact ih acc hle.2

theorem foldl_matchStep_fst (name : List Char) (ps : List (String × List Char)) :
    ∀ acc : Option String × ℚ, 0 ≤ acc.2 → acc.2 < bestScore name ps →
      (ps.foldl (matchStep name) acc).1
        = (ps.find? fun p => decide (bestScore name ps ≤ kwScore name p.2)).map Prod.fst := by
  induction ps with
  | nil =>
      intro acc hacc hlt
      rw [bestScore_nil] at hlt
      exact absurd (lt_of_le_of_lt hacc hlt) (lt_irrefl 0)
  | cons p ps ih =>
      intro acc hacc hlt
      rw [List.foldl_cons]
      by_cases hp : bestScore name (p :: ps) ≤ kwScore name p.2
      · have hB : bestScore name (p :: ps) = kwScore name p.2 :=
          le_antisymm hp (by rw [bestScore_cons]; exact le_max_left _ _)
        have hup : matchStep name acc p = (some p.1, kwScore name p.2) :=
          matchStep_update name acc p hacc (hB ▸ hlt)
        have htail : bestScore name ps ≤ kwScore name p.2 := by
          rw [bestScore_cons] at hB
          calc bestScore name ps ≤ max (kwScore name p.2) (bestScore name ps) :=
            le_max_right _ _
          _ = kwScore name p.2 := hB
        have hfind :
            List.find?
              (fun q : String × List Char =>
                decide (bestScore name (p :: ps) ≤ kwScore name q.2)) (p :: ps)
            = some p :=
          List.find?_cons_of_pos _ (by simpa using hp)
        rw [hup, foldl_matchStep_of_le name ps _ htail, hfind]
        rfl
      · have hkp : kwScore name p.2 < bestScore name (p :: ps) := not_le.1 hp
        have hbs : bestScore name (p :: ps) = bestScore name ps := by
          rw [bestScore_cons] at hkp ⊢
          rcases max_cases (kwScore name p.2) (bestScore name ps) with ⟨h1, _⟩ | ⟨h1, _⟩
          · rw [h1] at hkp
            exact absurd hkp (lt_irrefl _)
          · exact h1
        have hstep2 : (matchStep name acc p).2 = max acc.2 (kwScore name p.2) :=
          matchStep_snd name acc p hacc
        have hlt2 : (matchStep name acc p).2 < bestScore name ps := by
          rw [hstep2, ← hbs]
          exact max_lt hlt hkp
        have hnn2 : 0 ≤ (matchStep name acc p).2 := by
          rw [hstep2]
          exact le_trans hacc (le_max_left _ _)
        have hfind :
            List.find?
              (fun q : String × List Char =>
                decide (bestScore name (p :: ps) ≤ kwScore name q.2)) (p :: ps)
            = List.find?
              (fun q : String × List Char =>
                decide (bestScore name (p :: ps) ≤ kwScore name q.2)) ps :=
          List.find?_cons_of_neg _ (by simpa using hp)
        rw [ih _ hnn2 hlt2, hfind, hbs]

theorem match_industry_snd (name : List Char) :
    (match_industry name).2 = bestScore name industryPairs := by
  unfold match_industry
  rw [foldl_matchStep_snd name industryPairs (none, 0) (le_refl 0)]
  exact max_eq_right (bestScore_nonneg name industryPairs)

theorem match_industry_fst_pos (name : List Char)
    (h : 0 < bestScore name industryPairs) :
    (match_industry name).1
      = (industryPairs.find?
          fun p => decide (bestScore name industryPairs ≤ kwScore name p.2)).map Prod.fst :=
  foldl_matchStep_fst name industryPairs (none, 0) (le_refl 0) h

theorem find?_congr {α : Type} (f g : α → Bool) (l : List α)
    (h : ∀ x ∈ l, f x = g x) : l.find? f = l.find? g := by
  induction l with
  | nil => rfl
  | cons a l ih =>
      rw [List.find?_cons, List.find?_cons, h a (List.mem_cons_self a l)]
      split
      · rfl
      · exact ih fun x hx => h x (List.mem_cons_of_mem a hx)

/-- C4: `match_industry` returns quality 1.0 when some keyword matches as
an exact/leading/trailing substring; 0.7 when keywords match only
mid-string; `(none, 0)` when no keyword is a substring; and on any match
the resulting industry is that of the first table pair attaining the
returned (best) quality, in table iteration order. -/
theorem C4_match_industry_spec (name : List Char) :
    ((∃ p ∈ industryPairs, p.2 <:+: name
        ∧ (name = p.2 ∨ p.2 <+: name ∨ p.2 <:+ name)) →
      (match_industry name).2 = 1.0)
    ∧ (((∃ p ∈ industryPairs, p.2 <:+: name)
        ∧ ∀ p ∈ industryPairs, p.2 <:+: name →
            ¬(name = p.2 ∨ p.2 <+: name ∨ p.2 <:+ name)) →
      (match_industry name).2 = 0.7)
    ∧ ((∀ p ∈ industryPairs, ¬(p.2 <:+: name)) →
      match_industry name = (none, 0))
    ∧ ((∃ p ∈ industryPairs, p.2 <:+: name) →
      (match_industry name).1
        = (industryPairs.find?
            fun p => decide (kwScore name p.2 = (match_industry name).2)).map Prod.fst) := by
  refine ⟨?_, ?_, ?_, ?_⟩
  · rintro ⟨p, hp, hinf, hfull⟩
    have h1 : kwScore name p.2 = 1.0 := by simp [kwScore, if_pos hinf, if_pos hfull]
    rw [match_industry_snd]
    refine le_antisymm ?_ ?_
    · refine bestScore_le (by norm_num) fun q _ => ?_
      unfold kwScore
      split_ifs <;> norm_num
    · calc (1.0 : ℚ) = kwScore name p.2 := h1.symm
      _ ≤ bestScore name industryPairs := le_bestScore_of_mem hp
  · rintro ⟨⟨p, hp, hinf⟩, hmid⟩
    have h1 : kwScore name p.2 = 0.7 := by
      simp [kwScore, if_pos hinf, if_neg (hmid p hp hinf)]
    rw [match_industry_snd]
    refine le_antisymm ?_ ?_
    · refine bestScore_le (by norm_num) fun q hq => ?_
      unfold kwScore
      by_cases hqi : q.2 <:+: name
      · simp [if_pos hqi, if_neg (hmid q hq hqi)]
      · simp [if_neg hqi]
        norm_num
    · calc (0.7 : ℚ) = kwScore name p.2 := h1.symm
      _ ≤ bestScore name industryPairs := le_bestScore_of_mem hp
  · intro hno
    have hz : bestScore name industryPairs = 0 := by
      refine le_antisymm ?_ (bestScore_nonneg name industryPairs)
      refine bestScore_le (le_refl 0) fun p hp => ?_
      simp [kwScore, if_neg (hno p hp)]
    have h2 : (match_industry name).2 = 0 := by rw [match_industry_snd, hz]
    have h1 : (match_industry name).1 = none := by
      unfold match_industry
      rw [foldl_matchStep_of_le name industryPairs (none, 0) (by rw [hz])]
    calc match_industry name = ((match_industry name).1, (match_industry name).2) := rfl
    _ = (none, 0) := by rw [h1, h2]
  · rintro ⟨p, hp, hinf⟩
    have hpos : 0 < bestScore name industryPairs := by
      have h7 : (0.7 : ℚ) ≤ kwScore name p.2 := by
        unfold kwScore
        rw [if_pos hinf]
        split_ifs <;> norm_num
      calc (0 : ℚ) < 0.7 := by norm_num
      _ ≤ kwScore name p.2 := h7
      _ ≤ bestScore name industryPairs := le_bestScore_of_mem hp
    rw [match_industry_fst_pos name hpos]
    congr 1
    refine find?_congr _ _ _ fun q hq => ?_
    rw [match_industry_snd]
    apply decide_eq_decide.2
    constructor
    · intro hle
      exact le_antisymm (le_bestScore_of_mem hq) hle
    · intro heq
      rw [heq]

/-- Witness for C4 at the concrete name `tech` (an exact keyword match). -/
theorem C4_match_industry_spec_witness :
    (match_industry "tech".data).2 = 1.0 :=
  (C4_match_industry_spec "tech".data).1
    ⟨("IT / Software", "tech".data),
      by simp +decide [industryPairs, INDUSTRY_KEYWORDS],
      by decide, Or.inl (by decide)⟩

/-! ### C9: menu navigation -/

/-- C9 counterexample: the `IT / Software` table entry has 5 middle items,
so after truncation to 7 entries the menu ends with `About` and contains
no `Contact` item, contradicting the claim that the menu is Home plus at
most 4 middle items followed by About and Contact. -/
theorem C9_menu_counterexample :
    generate_menu_navigation "IT / Software"
      = "Home | Solutions | Products | Pricing | Resources | Developers | About".data
    ∧ ¬("Contact".data <:+: generate_menu_navigation "IT / Software")
    ∧ (menuMiddleItems "IT / Software").length = 5 := by
  refine ⟨by decide, by decide, by decide⟩

/-- C9 (amended): every menu starts with `Home`, has at most 7 entries and
is joined with a bar separator; for every industry other than
`IT / Software` the middle-item table yields at most 4 items (3 for
unmapped industries) so the untruncated menu survives the cut to 7 and
ends with `About, Contact`; for `IT / Software` the table yields 5 middle
items and truncation drops the trailing `Contact`. -/
theorem C9_menu_structure (industry : String) :
    (menuItems industry).head? = some "Home".data
    ∧ (menuItems industry).length ≤ 7
    ∧ generate_menu_navigation industry = joinBar (menuItems industry)
    ∧ (industry_specific.find? (fun p => p.1 == industry) = none →
        menuMiddleItems industry
          = ["Products".data, "Services".data, "Resources".data])
    ∧ (industry ≠ "IT / Software" →
        (menuMiddleItems industry).length ≤ 4
        ∧ menuItems industry
            = ["Home".data] ++ menuMiddleItems industry
                ++ ["About".data, "Contact".data])
    ∧ menuItems "IT / Software"
        = ["Home".data, "Solutions".data, "Products".data, "Pricing".data,
           "Resources".data, "Developers".data, "About".data] := by
  have hmidlen : industry ≠ "IT / Software" → (menuMiddleItems industry).length ≤ 4 := by
    intro hne
    unfold menuMiddleItems
    cases hfind : industry_specific.find? (fun p => p.1 == industry) with
    | none => decide
    | some p =>
        have hmem : p ∈ industry_specific := List.mem_of_find?_eq_some hfind
        have hpi : p.1 = industry := by
          have hpred := List.find?_some hfind
          simpa using hpred
        fin_cases hmem <;>
          first
          | decide
          | exact absurd hpi.symm hne
  refine ⟨?_, ?_, rfl, ?_, fun hne => ⟨hmidlen hne, ?_⟩, by decide⟩
  · show ((base_menu.take 1 ++ menuMiddleItems industry ++ base_menu.drop 1).take 7).head? = _
    cases h : menuMiddleItems industry with
    | nil => simp [base_menu]
    | cons x xs => simp [base_menu]
  · exact List.length_take_le 7 _
  · intro hnone
    unfold menuMiddleItems
    rw [hnone]
  · have hlen :
        (base_menu.take 1 ++ menuMiddleItems industry ++ base_menu.drop 1).length ≤ 7 := by
      have h4 := hmidlen hne
      simp only [List.length_append, base_menu, List.length_take, List.length_drop]
      simp
      omega
    unfold menuItems
    rw [List.take_of_length_le hlen]
    rfl

/-- Witness for C9 at the concrete industry `Healthcare`. -/
theorem C9_menu_structure_witness :
    (menuMiddleItems "Healthcare").length ≤ 4
    ∧ menuItems "Healthcare"
        = ["Home".data] ++ menuMiddleItems "Healthcare"
            ++ ["About".data, "Contact".data] :=
  (C9_menu_structure "Healthcare").2.2.2.2.1 (by decide)

/-! ### C2, C3, C10: the bucketed selector -/

theorem pySliceIdx_le (len : ℕ) (k : ℤ) : pySliceIdx len k ≤ len := by
  unfold pySliceIdx
  split <;> omega

/-- `select_top_domains` sorts the concatenation of two initial segments
of its input buckets, whose lengths are given by `selA` and `selB`. -/
theorem select_top_eq_take (it other : List Scored) (N : ℤ) (r : ℚ) :
    select_top_domains it other N r
      = sortByScoreDesc
          (it.take (selA it other N r) ++ other.take (selB it other N r)) := by
  unfold select_top_domains selA selB
  simp only [pySlice_zero_left]
  set ic := itQuota N r with hic
  set oc := N - ic with hoc
  set A0 := pySliceIdx it.length ic with hA0
  set B0 := pySliceIdx other.length oc with hB0
  have hlA : (it.take A0).length = A0 := by
    rw [List.length_take]
    exact min_eq_left (pySliceIdx_le _ _)
  have hlB : (other.take B0).length = B0 := by
    rw [List.length_take]
    exact min_eq_left (pySliceIdx_le _ _)
  rw [hlA, hlB]
  congr 1
  split
  · split
    · simp only [pySlice, take_append_drop_take]
    · simp only [pySlice, take_append_drop_take]
  · split
    · simp only [pySlice, take_append_drop_take]
    · rfl

theorem itQuota_nonneg {N : ℤ} {r : ℚ} (hN : 0 ≤ N) (hr : 0 ≤ r) :
    0 ≤ itQuota N r := by
  unfold itQuota pyInt
  have h : (0 : ℚ) ≤ (N : ℚ) * r := mul_nonneg (by exact_mod_cast hN) hr
  rw [if_neg (not_lt.2 h)]
  exact Int.floor_nonneg.2 h

theorem itQuota_le {N : ℤ} {r : ℚ} (hN : 0 ≤ N) (hr : r ≤ 1) (hr0 : 0 ≤ r) :
    itQuota N r ≤ N := by
  unfold itQuota pyInt
  have h : (0 : ℚ) ≤ (N : ℚ) * r := mul_nonneg (by exact_mod_cast hN) hr0
  rw [if_neg (not_lt.2 h)]
  have h2 : (N : ℚ) * r ≤ (N : ℚ) := by
    calc (N : ℚ) * r ≤ (N : ℚ) * 1 :=
      mul_le_mul_of_nonneg_left hr (by exact_mod_cast hN)
    _ = (N : ℚ) := mul_one _
  calc ⌊(N : ℚ) * r⌋ ≤ ⌊((N : ℤ) : ℚ)⌋ := Int.floor_le_floor h2
  _ = N := Int.floor_intCast _

/-- Length of the output of `select_top_domains`: with quotas in range,
the selection holds `min N (it.length + other.length)` records. -/
theorem select_top_length (it other : List Scored) (N : ℤ) (r : ℚ)
    (hic0 : 0 ≤ itQuota N r) (hicN : itQuota N r ≤ N) :
    (select_top_domains it other N r).length
      = min N.toNat (it.length + other.length) := by
  rw [select_top_eq_take, sortByScoreDesc_length, List.length_append,
    List.length_take, List.length_take]
  unfold selA selB
  simp only
  set ic := itQuota N r with hic
  set oc := N - ic with hoc
  have hoc0 : 0 ≤ oc := by omega
  have hA0 : pySliceIdx it.length ic = min ic.toNat it.length :=
    pySliceIdx_nonneg _ hic0
  have hB0 : pySliceIdx other.length oc = min oc.toNat other.length :=
    pySliceIdx_nonneg _ hoc0
  rw [hA0, hB0]
  have hiter : pySliceIdx it.length (ic + (oc - ((min oc.toNat other.length : ℕ) : ℤ)))
      = min (ic + (oc - ((min oc.toNat other.length : ℕ) : ℤ))).toNat it.length :=
    pySliceIdx_nonneg _ (by omega)
  have hoter : pySliceIdx other.length (oc + (ic - ((min ic.toNat it.length : ℕ) : ℤ)))
      = min (oc + (ic - ((min ic.toNat it.length : ℕ) : ℤ))).toNat other.length :=
    pySliceIdx_nonneg _ (by omega)
  rw [hiter, hoter]
  split_ifs with h1 h2 h2 <;> omega

/-- C3: the selector's quotas are `floor(N*r)` for the target bucket and
`N - floor(N*r)` for the other bucket; and with `N = 10`, ratio `0.8`, at
least 8 target-bucket and 2 other-bucket records, the selection is a
permutation of the top 8 target and top 2 other records. -/
theorem C3_quota (it other : List Scored) (N : ℤ) (r : ℚ)
    (hN : 0 < N) (hr0 : 0 ≤ r) (hr1 : r ≤ 1) :
    itQuota N r = ⌊(N : ℚ) * r⌋
    ∧ N - itQuota N r = N - ⌊(N : ℚ) * r⌋
    ∧ (8 ≤ it.length → 2 ≤ other.length →
        (select_top_domains it other 10 0.8).Perm (it.take 8 ++ other.take 2)
        ∧ (select_top_domains it other 10 0.8).length = 10) := by
  have hq : itQuota N r = ⌊(N : ℚ) * r⌋ := by
    unfold itQuota pyInt
    exact if_neg (not_lt.2 (mul_nonneg (by exact_mod_cast hN.le) hr0))
  refine ⟨hq, by rw [hq], fun hit hot => ?_⟩
  have hq8 : itQuota 10 0.8 = 8 := by
    unfold itQuota pyInt
    norm_num
  have hA : selA it other 10 0.8 = 8 := by
    unfold selA
    simp only [hq8]
    rw [pySliceIdx_nonneg _ (by norm_num : (0:ℤ) ≤ 8),
      pySliceIdx_nonneg _ (by norm_num : (0:ℤ) ≤ 10 - 8)]
    rw [if_neg]
    · omega
    · intro hcon
      omega
  have hB : selB it other 10 0.8 = 2 := by
    unfold selB
    simp only [hq8]
    rw [pySliceIdx_nonneg _ (by norm_num : (0:ℤ) ≤ 8),
      pySliceIdx_nonneg _ (by norm_num : (0:ℤ) ≤ 10 - 8)]
    rw [if_neg]
    · omega
    · intro hcon
      omega
  have heq := select_top_eq_take it other 10 0.8
  rw [hA, hB] at heq
  constructor
  · rw [heq]
    exact sortByScoreDesc_perm _
  · rw [heq, sortByScoreDesc_length, List.length_append, List.length_take,
      List.length_take]
    omega

/-- Witness for C3 at concrete buckets of 8 and 2 records. -/
theorem C3_quota_witness :
    itQuota 10 0.8 = ⌊(10 : ℚ) * 0.8⌋
    ∧ 10 - itQuota 10 0.8 = 10 - ⌊(10 : ℚ) * 0.8⌋
    ∧ (8 ≤ (List.replicate 8 (scoreWith 1 1 1 mytechRecord)).length →
        2 ≤ (List.replicate 2 (scoreWith 1 1 1 mytechRecord)).length →
        (select_top_domains (List.replicate 8 (scoreWith 1 1 1 mytechRecord))
          (List.replicate 2 (scoreWith 1 1 1 mytechRecord)) 10 0.8).Perm
          ((List.replicate 8 (scoreWith 1 1 1 mytechRecord)).take 8
            ++ (List.replicate 2 (scoreWith 1 1 1 mytechRecord)).take 2)
        ∧ (select_top_domains (List.replicate 8 (scoreWith 1 1 1 mytechRecord))
            (List.replicate 2 (scoreWith 1 1 1 mytechRecord)) 10 0.8).length = 10) :=
  C3_quota (List.replicate 8 (scoreWith 1 1 1 mytechRecord))
    (List.replicate 2 (scoreWith 1 1 1 mytechRecord)) 10 0.8
    (by norm_num) (by norm_num) (by norm_num)

/-- C2: the selection always holds `min N (it.length + other.length)`
records (a shortfall reduces the result, it is never an error), and in
the concrete gap-fill scenario (`N = 10`, ratio `0.8`, 5 target-bucket
and 20 other-bucket records) the selection is a permutation of all 5
target records plus the top 5 other records, total size 10. -/
theorem C2_gap_fill (it other : List Scored) (N : ℤ) (r : ℚ)
    (hN : 0 < N) (hr0 : 0 ≤ r) (hr1 : r ≤ 1) :
    (select_top_domains it other N r).length
      = min N.toNat (it.length + other.length)
    ∧ (it.length = 5 → other.length = 20 →
        (select_top_domains it other 10 0.8).Perm (it ++ other.take 5)
        ∧ (select_top_domains it other 10 0.8).length = 10) := by
  have hic0 := itQuota_nonneg hN.le hr0
  have hicN := itQuota_le hN.le hr1 hr0
  refine ⟨select_top_length it other N r hic0 hicN, fun hit hot => ?_⟩
  have hq8 : itQuota 10 0.8 = 8 := by
    unfold itQuota pyInt
    norm_num
  have hA : selA it other 10 0.8 = 5 := by
    unfold selA
    simp only [hq8, hit, hot]
    decide
  have hB : selB it other 10 0.8 = 5 := by
    unfold selB
    simp only [hq8, hit, hot]
    decide
  have heq := select_top_eq_take it other 10 0.8
  rw [hA, hB] at heq
  constructor
  · rw [heq, List.take_of_length_le (by omega : it.length ≤ 5)]
    exact sortByScoreDesc_perm _
  · rw [heq, sortByScoreDesc_length, List.length_append, List.length_take,
      List.length_take]
    omega

/-- Witness for C2 at concrete buckets of 5 and 20 records. -/
theorem C2_gap_fill_witness :
    (select_top_domains (List.replicate 5 (scoreWith 1 1 1 mytechRecord))
        (List.replicate 20 (scoreWith 1 1 1 mytechRecord)) 10 0.8).length
      = min (10 : ℤ).toNat
          ((List.replicate 5 (scoreWith 1 1 1 mytechRecord)).length
            + (List.replicate 20 (scoreWith 1 1 1 mytechRecord)).length)
    ∧ ((List.replicate 5 (scoreWith 1 1 1 mytechRecord)).length = 5 →
        (List.replicate 20 (scoreWith 1 1 1 mytechRecord)).length = 20 →
        (select_top_domains (List.replicate 5 (scoreWith 1 1 1 mytechRecord))
          (List.replicate 20 (scoreWith 1 1 1 mytechRecord)) 10 0.8).Perm
          (List.replicate 5 (scoreWith 1 1 1 mytechRecord)
            ++ (List.replicate 20 (scoreWith 1 1 1 mytechRecord)).take 5)
        ∧ (select_top_domains (List.replicate 5 (scoreWith 1 1 1 mytechRecord))
            (List.replicate 20 (scoreWith 1 1 1 mytechRecord)) 10 0.8).length = 10) :=
  C2_gap_fill (List.replicate 5 (scoreWith 1 1 1 mytechRecord))
    (List.replicate 20 (scoreWith 1 1 1 mytechRecord)) 10 0.8
    (by norm_num) (by norm_num) (by norm_num)

/-- C10: the selection never contains a record twice: before the final
sort it is exactly a pair of initial segments `it.take A ++ other.take B`
of the two buckets (the quota slices and the gap-fill slices are disjoint
index ranges), so for buckets without duplicate records the selection has
no duplicates. -/
theorem C10_no_duplicates (it other : List Scored) (N : ℤ) (r : ℚ)
    (h : (it ++ other).Nodup) :
    (select_top_domains it other N r).Nodup
    ∧ ∃ A B, select_top_domains it other N r
        = sortByScoreDesc (it.take A ++ other.take B) := by
  refine ⟨?_, selA it other N r, selB it other N r, select_top_eq_take it other N r⟩
  rw [select_top_eq_take]
  rw [List.nodup_append] at h
  have hnd : (it.take (selA it other N r) ++ other.take (selB it other N r)).Nodup := by
    rw [List.nodup_append]
    refine ⟨(List.take_sublist _ _).nodup h.1,
      (List.take_sublist _ _).nodup h.2.1, ?_⟩
    exact List.disjoint_of_subset_left (List.take_subset _ _)
      (List.disjoint_of_subset_right (List.take_subset _ _) h.2.2)
  exact ((sortByScoreDesc_perm _).nodup_iff).2 hnd

/-- Witness for C10 at two concrete one-record buckets. -/
theorem C10_no_duplicates_witness :
    (select_top_domains [⟨mytechRecord, 1⟩] [⟨mytechRecord, 2⟩] 1 0.8).Nodup
    ∧ ∃ A B, select_top_domains [⟨mytechRecord, 1⟩] [⟨mytechRecord, 2⟩] 1 0.8
        = sortByScoreDesc (([⟨mytechRecord, 1⟩] : List Scored).take A
            ++ ([⟨mytechRecord, 2⟩] : List Scored).take B) :=
  C10_no_duplicates [⟨mytechRecord, 1⟩] [⟨mytechRecord, 2⟩] 1 0.8
    (by
      simp only [List.cons_append, List.nil_append, List.nodup_cons,
        List.mem_singleton, List.not_mem_nil, not_false_iff, List.nodup_nil,
        and_true]
      intro hcon
      have := congrArg Scored.combined_score hcon
      norm_num at this)

/-! ### C7: order independence and determinism of the scoring pass -/

theorem maxOf_perm {l₁ l₂ : List ℤ} (h : l₁.Perm l₂) (dflt : ℤ) :
    maxOf l₁ dflt = maxOf l₂ dflt := by
  unfold maxOf
  haveI : RightCommutative (fun (a : WithBot ℤ) (x : ℤ) => max a (x : WithBot ℤ)) :=
    ⟨fun a x y => by rw [max_assoc, max_comm (x : WithBot ℤ), ← max_assoc]⟩
  rw [h.foldl_eq]

/-- C7: the three batch maxima are invariant under permutation of the
batch of classified records, hence every record's combined score is as
well; and the scoring pass is a pure function, so rerunning it on an
identical batch returns the identical buckets and ordering. -/
theorem C7_order_independent (l₁ l₂ : List Classified) (h : l₁.Perm l₂) :
    maxOf (l₁.map fun c => c.base.age) 26 = maxOf (l₂.map fun c => c.base.age) 26
    ∧ maxOf (l₁.map fun c => c.base.backlinks + c.base.referring_domains) 500
        = maxOf (l₂.map fun c => c.base.backlinks + c.base.referring_domains) 500
    ∧ maxOf (l₁.map fun c => c.base.traffic) 100
        = maxOf (l₂.map fun c => c.base.traffic) 100
    ∧ (∀ d : Classified,
        calculate_combined_score d
          (maxOf (l₁.map fun c => c.base.age) 26)
          (maxOf (l₁.map fun c => c.base.backlinks + c.base.referring_domains) 500)
          (maxOf (l₁.map fun c => c.base.traffic) 100)
        = calculate_combined_score d
          (maxOf (l₂.map fun c => c.base.age) 26)
          (maxOf (l₂.map fun c => c.base.backlinks + c.base.referring_domains) 500)
          (maxOf (l₂.map fun c => c.base.traffic) 100))
    ∧ (∀ ds : List DomainData,
        filter_and_score_domains ds = filter_and_score_domains ds) := by
  have h1 := maxOf_perm (h.map fun c => c.base.age) 26
  have h2 := maxOf_perm (h.map fun c => c.base.backlinks + c.base.referring_domains) 500
  have h3 := maxOf_perm (h.map fun c => c.base.traffic) 100
  exact ⟨h1, h2, h3, fun d => by rw [h1, h2, h3], fun ds => rfl⟩

/-- Witness for C7 at a concrete two-record batch and its swap. -/
theorem C7_order_independent_witness :
    maxOf ([mytechRecord, mytechRecord].map fun c => c.base.age) 26
      = maxOf ([mytechRecord, mytechRecord].map fun c => c.base.age) 26
    ∧ maxOf ([mytechRecord, mytechRecord].map
          fun c => c.base.backlinks + c.base.referring_domains) 500
        = maxOf ([mytechRecord, mytechRecord].map
          fun c => c.base.backlinks + c.base.referring_domains) 500
    ∧ maxOf ([mytechRecord, mytechRecord].map fun c => c.base.traffic) 100
        = maxOf ([mytechRecord, mytechRecord].map fun c => c.base.traffic) 100
    ∧ (∀ d : Classified,
        calculate_combined_score d
          (maxOf ([mytechRecord, mytechRecord].map fun c => c.base.age) 26)
          (maxOf ([mytechRecord, mytechRecord].map
            fun c => c.base.backlinks + c.base.referring_domains) 500)
          (maxOf ([mytechRecord, mytechRecord].map fun c => c.base.traffic) 100)
        = calculate_combined_score d
          (maxOf ([mytechRecord, mytechRecord].map fun c => c.base.age) 26)
          (maxOf ([mytechRecord, mytechRecord].map
            fun c => c.base.backlinks + c.base.referring_domains) 500)
          (maxOf ([mytechRecord, mytechRecord].map fun c => c.base.traffic) 100))
    ∧ (∀ ds : List DomainData,
        filter_and_score_domains ds = filter_and_score_domains ds) :=
  C7_order_independent [mytechRecord, mytechRecord] [mytechRecord, mytechRecord]
    (List.Perm.swap mytechRecord mytechRecord [])

/-! ### C5: the deny-list -/

theorem bucketize_cons (d : DomainData) (rest : List DomainData) :
    bucketize (d :: rest)
      = match classifyRecord d with
        | none => bucketize rest
        | some c =>
            if c.tld = ".org".data then bucketize rest
            else if "horizon".data <:+: c.domain_name_clean then bucketize rest
            else if c.industry = "IT / Software" then
              (c :: (bucketize rest).1, (bucketize rest).2)
            else ((bucketize rest).1, c :: (bucketize rest).2) := rfl

theorem mem_bucketize {domains : List DomainData} {c : Classified}
    (hc : c ∈ (bucketize domains).1 ∨ c ∈ (bucketize domains).2) :
    c.tld ≠ ".org".data ∧ ¬("horizon".data <:+: c.domain_name_clean) := by
  induction domains with
  | nil => simp [bucketize] at hc
  | cons d rest ih =>
      rw [bucketize_cons] at hc
      cases hcl : classifyRecord d with
      | none =>
          rw [hcl] at hc
          exact ih hc
      | some c0 =>
          rw [hcl] at hc
          simp only [] at hc
          by_cases h1 : c0.tld = ".org".data
          · rw [if_pos h1] at hc
            exact ih hc
          · rw [if_neg h1] at hc
            by_cases h2 : "horizon".data <:+: c0.domain_name_clean
            · rw [if_pos h2] at hc
              exact ih hc
            · rw [if_neg h2] at hc
              by_cases h3 : c0.industry = "IT / Software"
              · rw [if_pos h3] at hc
                rcases hc with hc | hc
                · rcases List.mem_cons.1 hc with rfl | hc
                  · exact ⟨h1, h2⟩
                  · exact ih (Or.inl hc)
                · exact ih (Or.inr hc)
              · rw [if_neg h3] at hc
                rcases hc with hc | hc
                · exact ih (Or.inl hc)
                · rcases List.mem_cons.1 hc with rfl | hc
                  · exact ⟨h1, h2⟩
                  · exact ih (Or.inr hc)

theorem mem_filter_and_score {domains : List DomainData} {s : Scored}
    (hs : s ∈ (filter_and_score_domains domains).1
      ∨ s ∈ (filter_and_score_domains domains).2) :
    ∃ c, (c ∈ (bucketize domains).1 ∨ c ∈ (bucketize domains).2)
      ∧ s.record = c := by
  unfold filter_and_score_domains at hs
  by_cases hemp : ((bucketize domains).1 ++ (bucketize domains).2).isEmpty
  · rw [if_pos hemp] at hs
    simp at hs
  · rw [if_neg hemp] at hs
    rcases hs with hs | hs
    · have hm := ((sortByScoreDesc_perm _).mem_iff).1 hs
      rcases List.mem_map.1 hm with ⟨c, hc, rfl⟩
      exact ⟨c, Or.inl hc, rfl⟩
    · have hm := ((sortByScoreDesc_perm _).mem_iff).1 hs
      rcases List.mem_map.1 hm with ⟨c, hc, rfl⟩
      exact ⟨c, Or.inr hc, rfl⟩

theorem mem_select_top {it other : List Scored} {N : ℤ} {r : ℚ} {s : Scored}
    (hs : s ∈ select_top_domains it other N r) :
    s ∈ it ∨ s ∈ other := by
  rw [select_top_eq_take] at hs
  have hm := ((sortByScoreDesc_perm _).mem_iff).1 hs
  rcases List.mem_append.1 hm with h | h
  · exact Or.inl (List.take_subset _ _ h)
  · exact Or.inr (List.take_subset _ _ h)

/-- C5: no record placed in either bucket (hence none scored or selected)
has TLD `.org` or a normalized name containing `horizon`; and the example
`horizonhealthcare.com` is classified into the Healthcare industry yet is
kept out of both buckets by the `horizon` deny rule. -/
theorem C5_deny_list (domains : List DomainData) :
    (∀ c ∈ (bucketize domains).1 ++ (bucketize domains).2,
        c.tld ≠ ".org".data ∧ ¬("horizon".data <:+: c.domain_name_clean))
    ∧ (∀ s ∈ (filter_and_score_domains domains).1
          ++ (filter_and_score_domains domains).2,
        s.record.tld ≠ ".org".data
        ∧ ¬("horizon".data <:+: s.record.domain_name_clean))
    ∧ (∀ (N : ℤ) (r : ℚ),
        ∀ s ∈ select_top_domains (filter_and_score_domains domains).1
            (filter_and_score_domains domains).2 N r,
        s.record.tld ≠ ".org".data
        ∧ ¬("horizon".data <:+: s.record.domain_name_clean))
    ∧ (match_industry (clean_domain horizonData.domain)).1 = some "Healthcare"
    ∧ filter_and_score_domains [horizonData] = ([], []) := by
  have hclean : clean_domain "horizonhealthcare.com".data
      = "horizonhealthcare".data := by
    simp +decide [clean_domain, pyStrip, pyLower, TLD_SUFFIXES]
  have hmatch : match_industry "horizonhealthcare".data
      = (some "Healthcare", 1.0) := by
    simp +decide [match_industry, industryPairs, INDUSTRY_KEYWORDS, matchStep]
    norm_num
  refine ⟨?_, ?_, ?_, ?_, ?_⟩
  · intro c hc
    exact mem_bucketize (List.mem_append.1 hc)
  · intro s hs
    obtain ⟨c, hc, hrec⟩ := mem_filter_and_score (List.mem_append.1 hs)
    rw [hrec]
    exact mem_bucketize hc
  · intro N r s hs
    rcases mem_select_top hs with h | h
    · obtain ⟨c, hc, hrec⟩ := mem_filter_and_score (Or.inl h)
      rw [hrec]
      exact mem_bucketize hc
    · obtain ⟨c, hc, hrec⟩ := mem_filter_and_score (Or.inr h)
      rw [hrec]
      exact mem_bucketize hc
  · rw [show horizonData.domain = "horizonhealthcare.com".data from rfl, hclean,
      hmatch]
  · have hcl : classifyRecord horizonData
        = some { base := horizonData
                 domain_name_clean := "horizonhealthcare".data
                 tld := ".com".data
                 industry := "Healthcare"
                 industry_match_quality := 1.0
                 register_date := 2020 } := by
      have hm : match_industry (clean_domain horizonData.domain)
          = (some "Healthcare", 1.0) := by
        rw [show horizonData.domain = "horizonhealthcare.com".data from rfl,
          hclean]
        exact hmatch
      simp only [classifyRecord]
      rw [hm]
      rfl
    have hbuck : bucketize [horizonData] = ([], []) := by
      rw [bucketize_cons, hcl]
      simp only []
      rw [if_neg (by decide), if_pos (by decide)]
      rfl
    unfold filter_and_score_domains
    rw [hbuck]
    rfl

theorem clean_mytech :
    clean_domain "mytechsolutions.com".data = "mytechsolutions".data := by
  simp +decide [clean_domain, pyStrip, pyLower, TLD_SUFFIXES]

theorem match_mytech :
    match_industry "mytechsolutions".data = (some "IT / Software", 0.7) := by
  simp +decide [match_industry, industryPairs, INDUSTRY_KEYWORDS, matchStep]
  norm_num

theorem classify_mytech :
    classifyRecord mytechRecord.base = some mytechRecord := by
  have hm : match_industry (clean_domain mytechRecord.base.domain)
      = (some "IT / Software", 0.7) := by
    rw [show mytechRecord.base.domain = "mytechsolutions.com".data from rfl,
      clean_mytech]
    exact match_mytech
  simp only [classifyRecord]
  rw [hm]
  rfl

theorem bucketize_mytech :
    bucketize [mytechRecord.base] = ([mytechRecord], []) := by
  rw [bucketize_cons, classify_mytech]
  simp only []
  rw [if_neg (by decide), if_neg (by decide),
    if_pos (show mytechRecord.industry = "IT / Software" from rfl)]
  rfl

/-- Witness for C5: the concrete classified `mytechsolutions.com` record
is in the IT bucket of a one-record batch and satisfies the deny-list
invariant. -/
theorem C5_deny_list_witness :
    mytechRecord.tld ≠ ".org".data
    ∧ ¬("horizon".data <:+: mytechRecord.domain_name_clean) :=
  (C5_deny_list [mytechRecord.base]).1 mytechRecord
    (by rw [bucketize_mytech]; simp)

/-! ### C8: case-insensitive dedup during loading -/

theorem loadRows_cons (excl : List (List Char)) (row : RawRow)
    (rest : List RawRow) (seen : List (List Char)) :
    loadRows excl (row :: rest) seen
      = match row.domainName with
        | none => loadRows excl rest seen
        | some dn0 =>
            let dn := pyStrip dn0
            let dl := pyLower dn
            if dl ∈ seen then loadRows excl rest seen
            else if dl ∈ excl then loadRows excl rest seen
            else match row.fields with
              | none => loadRows excl rest (dl :: seen)
              | some f => mkDomainData dn f :: loadRows excl rest (dl :: seen) := rfl

theorem loadRows_nodup (excl : List (List Char)) (rows : List RawRow) :
    ∀ seen : List (List Char),
      (((loadRows excl rows seen).map fun d => pyLower d.domain).Nodup)
      ∧ ∀ d ∈ loadRows excl rows seen, pyLower d.domain ∉ seen := by
  induction rows with
  | nil =>
      intro seen
      exact ⟨List.nodup_nil, by intro d hd; cases hd⟩
  | cons row rest ih =>
      intro seen
      rw [loadRows_cons]
      cases hdn : row.domainName with
      | none => exact ih seen
      | some dn0 =>
          simp only []
          by_cases h1 : pyLower (pyStrip dn0) ∈ seen
          · rw [if_pos h1]
            exact ih seen
          · rw [if_neg h1]
            by_cases h2 : pyLower (pyStrip dn0) ∈ excl
            · rw [if_pos h2]
              exact ih seen
            · rw [if_neg h2]
              cases hf : row.fields with
              | none =>
                  obtain ⟨ha, hb⟩ := ih (pyLower (pyStrip dn0) :: seen)
                  exact ⟨ha, fun d hd hmem =>
                    hb d hd (List.mem_cons_of_mem _ hmem)⟩
              | some f =>
                  obtain ⟨ha, hb⟩ := ih (pyLower (pyStrip dn0) :: seen)
                  constructor
                  · rw [List.map_cons]
                    refine List.nodup_cons.2 ⟨?_, ha⟩
                    intro hmem
                    rcases List.mem_map.1 hmem with ⟨d, hd, hld⟩
                    exact hb d hd (hld ▸ List.mem_cons_self _ _)
                  · intro d hd
                    rcases List.mem_cons.1 hd with rfl | hd'
                    · exact h1
                    · exact fun hmem => hb d hd' (List.mem_cons_of_mem _ hmem)

theorem loadRows_firstDedup (rows : List RawRow)
    (hrows : ∀ row ∈ rows, row.domainName.isSome ∧ row.fields.isSome) :
    ∀ seen, (loadRows [] rows seen).map (fun d => pyLower d.domain)
      = firstDedup
          (rows.map fun row => pyLower (pyStrip (row.domainName.getD []))) seen := by
  induction rows with
  | nil => intro seen; rfl
  | cons row rest ih =>
      intro seen
      obtain ⟨hdn, hf⟩ := hrows row (List.mem_cons_self _ _)
      obtain ⟨dn0, hdn0⟩ := Option.isSome_iff_exists.1 hdn
      obtain ⟨f, hf0⟩ := Option.isSome_iff_exists.1 hf
      have ihr := ih fun r hr => hrows r (List.mem_cons_of_mem _ hr)
      rw [loadRows_cons, hdn0]
      simp only [List.map_cons, hdn0, Option.getD_some, firstDedup]
      by_cases h1 : pyLower (pyStrip dn0) ∈ seen
      · rw [if_pos h1, if_pos h1]
        exact ihr seen
      · rw [if_neg h1, if_neg h1, if_neg (List.not_mem_nil _), hf0]
        rw [List.map_cons]
        rw [show pyLower (mkDomainData (pyStrip dn0) f).domain
            = pyLower (pyStrip dn0) from rfl]
        rw [ihr (pyLower (pyStrip dn0) :: seen)]

/-- C8 counterexample: rows `Tech.com` (numeric fields unparsable) and
`tech.com` (well-formed) share a lowercase domain, yet nothing at all is
loaded: the malformed first occurrence claims the `seen_domains` slot
before its fields fail to parse, so the later well-formed duplicate is
also skipped and no record with this domain is kept. -/
theorem C8_first_wins_counterexample :
    pyLower (pyStrip "Tech.com".data) = pyLower (pyStrip "tech.com".data)
    ∧ row2good.fields.isSome = true
    ∧ load_csv_files [row1bad, row2good] [] = [] := by
  refine ⟨by decide, rfl, ?_⟩
  rw [load_csv_files, loadRows_cons]
  rw [show row1bad.domainName = some "Tech.com".data from rfl]
  simp only []
  rw [if_neg (by decide), if_neg (by decide)]
  rw [show row1bad.fields = none from rfl]
  rw [loadRows_cons]
  rw [show row2good.domainName = some "tech.com".data from rfl]
  simp only []
  rw [if_pos (by decide)]
  rfl

theorem classifyRecord_base {d : DomainData} {c : Classified}
    (h : classifyRecord d = some c) : c.base = d := by
  simp only [classifyRecord] at h
  cases hm : (match_industry (clean_domain d.domain)).1 with
  | none =>
      rw [hm] at h
      exact absurd h (by simp)
  | some industry =>
      rw [hm] at h
      simp only [Option.some.injEq] at h
      rw [← h]

theorem bucketize_base_mem {domains : List DomainData} {c : Classified}
    (hc : c ∈ (bucketize domains).1 ++ (bucketize domains).2) :
    c.base ∈ domains := by
  induction domains with
  | nil => simp [bucketize] at hc
  | cons d rest ih =>
      rw [bucketize_cons] at hc
      cases hcl : classifyRecord d with
      | none =>
          rw [hcl] at hc
          exact List.mem_cons_of_mem _ (ih hc)
      | some c0 =>
          rw [hcl] at hc
          simp only [] at hc
          by_cases h1 : c0.tld = ".org".data
          · rw [if_pos h1] at hc
            exact List.mem_cons_of_mem _ (ih hc)
          · rw [if_neg h1] at hc
            by_cases h2 : "horizon".data <:+: c0.domain_name_clean
            · rw [if_pos h2] at hc
              exact List.mem_cons_of_mem _ (ih hc)
            · rw [if_neg h2] at hc
              by_cases h3 : c0.industry = "IT / Software"
              · rw [if_pos h3, List.cons_append] at hc
                rcases List.mem_cons.1 hc with rfl | hc'
                · rw [classifyRecord_base hcl]
                  exact List.mem_cons_self _ _
                · exact List.mem_cons_of_mem _ (ih hc')
              · rw [if_neg h3] at hc
                rcases List.mem_append.1 hc with hc' | hc'
                · exact List.mem_cons_of_mem _
                    (ih (List.mem_append.2 (Or.inl hc')))
                · rcases List.mem_cons.1 hc' with rfl | hc''
                  · rw [classifyRecord_base hcl]
                    exact List.mem_cons_self _ _
                  · exact List.mem_cons_of_mem _
                      (ih (List.mem_append.2 (Or.inr hc'')))

theorem bucketize_base_nodup {domains : List DomainData}
    (h : (domains.map fun d => pyLower d.domain).Nodup) :
    (((bucketize domains).1 ++ (bucketize domains).2).map
      fun c => pyLower c.base.domain).Nodup := by
  induction domains with
  | nil => simp [bucketize]
  | cons d rest ih =>
      rw [List.map_cons, List.nodup_cons] at h
      obtain ⟨hd, hrest⟩ := h
      have ihr := ih hrest
      rw [bucketize_cons]
      cases hcl : classifyRecord d with
      | none => exact ihr
      | some c0 =>
          have hbase : c0.base = d := classifyRecord_base hcl
          simp only []
          by_cases h1 : c0.tld = ".org".data
          · rw [if_pos h1]
            exact ihr
          · rw [if_neg h1]
            by_cases h2 : "horizon".data <:+: c0.domain_name_clean
            · rw [if_pos h2]
              exact ihr
            · rw [if_neg h2]
              have hnotmem : pyLower c0.base.domain ∉
                  (((bucketize rest).1 ++ (bucketize rest).2).map
                    fun c => pyLower c.base.domain) := by
                intro hmem
                rcases List.mem_map.1 hmem with ⟨c, hcmem, hlc⟩
                have hin : pyLower c.base.domain
                    ∈ rest.map fun x => pyLower x.domain :=
                  List.mem_map_of_mem _ (bucketize_base_mem hcmem)
                rw [hlc, hbase] at hin
                exact hd hin
              by_cases h3 : c0.industry = "IT / Software"
              · rw [if_pos h3, List.cons_append, List.map_cons]
                exact List.nodup_cons.2 ⟨hnotmem, ihr⟩
              · rw [if_neg h3]
                have hperm :
                    (((bucketize rest).1 ++ c0 :: (bucketize rest).2).map
                        fun c => pyLower c.base.domain).Perm
                      ((c0 :: ((bucketize rest).1 ++ (bucketize rest).2)).map
                        fun c => pyLower c.base.domain) :=
                  List.perm_middle.map _
                refine hperm.nodup_iff.2 ?_
                rw [List.map_cons]
                exact List.nodup_cons.2 ⟨hnotmem, ihr⟩

theorem scored_append_nodup (b1 b2 : List Classified) (ma mb mt : ℤ)
    (h : ((b1 ++ b2).map fun c => pyLower c.base.domain).Nodup) :
    ((sortByScoreDesc (b1.map (scoreWith ma mb mt))
      ++ sortByScoreDesc (b2.map (scoreWith ma mb mt))).map
        fun s => pyLower s.record.base.domain).Nodup := by
  have hperm :
      (sortByScoreDesc (b1.map (scoreWith ma mb mt))
        ++ sortByScoreDesc (b2.map (scoreWith ma mb mt))).Perm
      (b1.map (scoreWith ma mb mt) ++ b2.map (scoreWith ma mb mt)) :=
    (sortByScoreDesc_perm _).append (sortByScoreDesc_perm _)
  refine (hperm.map _).nodup_iff.2 ?_
  rw [← List.map_append, List.map_map]
  exact h

theorem filter_and_score_base_nodup {domains : List DomainData}
    (h : (domains.map fun d => pyLower d.domain).Nodup) :
    (((filter_and_score_domains domains).1
        ++ (filter_and_score_domains domains).2).map
      fun s => pyLower s.record.base.domain).Nodup := by
  unfold filter_and_score_domains
  by_cases hemp : ((bucketize domains).1 ++ (bucketize domains).2).isEmpty
  · rw [if_pos hemp]
    simp
  · rw [if_neg hemp]
    exact scored_append_nodup _ _ _ _ _ (bucketize_base_nodup h)

theorem select_output_base_nodup (rows : List RawRow)
    (excluded : List (List Char)) (N : ℤ) (r : ℚ) :
    ((select_top_domains
        (filter_and_score_domains (load_csv_files rows excluded)).1
        (filter_and_score_domains (load_csv_files rows excluded)).2 N r).map
      fun s => pyLower s.record.base.domain).Nodup := by
  have h1 := filter_and_score_base_nodup (loadRows_nodup excluded rows []).1
  set f1 := (filter_and_score_domains (load_csv_files rows excluded)).1 with hf1
  set f2 := (filter_and_score_domains (load_csv_files rows excluded)).2 with hf2
  rw [select_top_eq_take]
  refine ((sortByScoreDesc_perm _).map _).nodup_iff.2 ?_
  have hsub : (f1.take (selA f1 f2 N r) ++ f2.take (selB f1 f2 N r)).Sublist
      (f1 ++ f2) :=
    (List.take_sublist _ _).append (List.take_sublist _ _)
  exact (hsub.map _).nodup h1

/-- C8 (amended): the loaded list never contains two records whose
domains agree after lowercasing, for any rows and exclusion set; when
every row is well-formed (readable domain and parsable fields) and there
are no exclusions, the loaded lowercase domains are exactly the row
domains deduplicated keeping first occurrences; and for every total
count and ratio the final pipeline output (selection over the scored
buckets of the loaded records) also never contains two records with the
same lowercase domain.  (A malformed first occurrence still claims its
domain in `seen_domains`, so it suppresses later well-formed duplicates
without being loaded itself.) -/
theorem C8_dedup (rows : List RawRow) (excluded : List (List Char)) :
    (((load_csv_files rows excluded).map fun d => pyLower d.domain).Nodup)
    ∧ ((∀ row ∈ rows, row.domainName.isSome ∧ row.fields.isSome) →
        (load_csv_files rows []).map (fun d => pyLower d.domain)
          = firstDedup
              (rows.map fun row => pyLower (pyStrip (row.domainName.getD []))) [])
    ∧ (∀ (N : ℤ) (r : ℚ),
        ((select_top_domains
            (filter_and_score_domains (load_csv_files rows excluded)).1
            (filter_and_score_domains (load_csv_files rows excluded)).2 N r).map
          fun s => pyLower s.record.base.domain).Nodup) :=
  ⟨(loadRows_nodup excluded rows []).1, fun h => loadRows_firstDedup rows h [],
    fun N r => select_output_base_nodup rows excluded N r⟩

/-- Witness for C8 at a concrete two-row input whose rows all parse. -/
theorem C8_dedup_witness :
    (load_csv_files [row2good, row2good] []).map (fun d => pyLower d.domain)
      = firstDedup
          ([row2good, row2good].map
            fun row => pyLower (pyStrip (row.domainName.getD []))) [] :=
  (C8_dedup [row2good, row2good] []).2.1 (by decide)

end DomainFilter
